import Mathlib

/-!
A shallow embedding of the Sudoku solving engine from `sudoku.py`
(classes `Cell` and `Sudoku`), together with proofs of the specified
properties.  Python objects become Lean structures; in-place mutation
becomes explicit state passing; Python's `None` results become `Option`.
-/

set_option maxHeartbeats 1000000

/-- A single cell of the board: `value` (0 = undetermined), the list
`possible` of candidate values, and `max_val`, mirrors class `Cell`. -/
structure Cell where
  value : Nat
  possible : List Nat
  max_val : Nat
deriving DecidableEq

/-- `Cell.__init__`: a cell with value 0 gets candidates `[1..max_val]`,
a determined cell gets an empty candidate list. -/
def Cell.init (value : Nat) (max_val : Nat) : Cell :=
  { value := value, max_val := max_val,
    possible := if value = 0 then List.range' 1 max_val else [] }

/-- `Cell.__str__`: 0 renders as `_`, 1–9 as the decimal digit, 10–35 as
`A`–`Z` (code point value+55), 36–64 as `a`–`z` and three punctuation
symbols (code point value+61), anything larger as `*`. -/
def Cell.str (c : Cell) : String :=
  if c.value = 0 then "_"
  else if c.value < 10 then String.singleton (Char.ofNat (c.value + 48))
  else if c.value < 36 then String.singleton (Char.ofNat (c.value + 55))
  else if c.value < 65 then String.singleton (Char.ofNat (c.value + 61))
  else "*"

/-- `Cell.set`: reinitializes the cell with the given value, keeping `max_val`. -/
def Cell.set (c : Cell) (value : Nat) : Cell := Cell.init value c.max_val

/-- `Cell.remove_from_possible`: removes `value` from the candidate list if
present (Python's guarded `list.remove`, i.e. erase the first occurrence). -/
def Cell.remove_from_possible (c : Cell) (value : Nat) : Cell :=
  { c with possible := c.possible.erase value }

/-- The entire puzzle, mirrors class `Sudoku`. -/
structure Sudoku where
  box_size : Nat
  max_val : Nat
  cells_filled : Nat
  cell : List (List Cell)
deriving DecidableEq

/-- `Sudoku.__init__`: a `box_size² × box_size²` grid of fresh undetermined cells. -/
def Sudoku.init (box_size : Nat) : Sudoku :=
  { box_size := box_size
    max_val := box_size ^ 2
    cells_filled := 0
    cell := List.replicate (box_size ^ 2)
      (List.replicate (box_size ^ 2) (Cell.init 0 (box_size ^ 2))) }

/-- Default cell returned for out-of-range reads (never reached in the
modelled control flow, where all indices are in range). -/
def cellDefault : Cell := { value := 0, possible := [], max_val := 0 }

/-- Read `self.cell[row][col]`. -/
def Sudoku.getCell (s : Sudoku) (row col : Nat) : Cell :=
  (s.cell.getD row []).getD col cellDefault

/-- Write `self.cell[row][col] = c` (no-op out of range). -/
def Sudoku.setCellAt (s : Sudoku) (row col : Nat) (c : Cell) : Sudoku :=
  { s with cell := s.cell.set row ((s.cell.getD row []).set col c) }

/-- `Sudoku.remove_value_from_possibles`: eliminate `value` from the
candidate lists of every cell in the given row, then the given column,
then the box containing `(row, col)`. -/
def Sudoku.remove_value_from_possibles (s : Sudoku) (value row col : Nat) : Sudoku :=
  let s1 := (List.range s.max_val).foldl
    (fun t c => t.setCellAt row c ((t.getCell row c).remove_from_possible value)) s
  let s2 := (List.range s1.max_val).foldl
    (fun t r => t.setCellAt r col ((t.getCell r col).remove_from_possible value)) s1
  let box_row := row / s2.box_size * s2.box_size
  let box_col := col / s2.box_size * s2.box_size
  (List.range' box_row s2.box_size).foldl
    (fun t r => (List.range' box_col s2.box_size).foldl
      (fun t2 c => t2.setCellAt r c ((t2.getCell r c).remove_from_possible value)) t) s2

/-- `Sudoku.set_cell`: if `value` is not a candidate of `cell[row][col]`
return the board unchanged with `false`; otherwise set the cell, increment
`cells_filled`, propagate the elimination, and return `true`. -/
def Sudoku.set_cell (s : Sudoku) (value row col : Nat) : Sudoku × Bool :=
  if value ∈ (s.getCell row col).possible then
    let s1 := s.setCellAt row col ((s.getCell row col).set value)
    let s2 := { s1 with cells_filled := s1.cells_filled + 1 }
    (s2.remove_value_from_possibles value row col, true)
  else (s, false)

/-- `Sudoku.find_one_possible`: row-major scan for the first cell whose
candidate list has exactly one member; `none` plays `(None, None)`. -/
def Sudoku.find_one_possible (s : Sudoku) : Option (Nat × Nat) :=
  (List.range s.max_val).findSome? (fun row =>
    ((List.range s.max_val).find? (fun col =>
      (s.getCell row col).possible.length == 1)).map (fun col => (row, col)))

/-- `Sudoku.find_lowest_possibles`: row-major scan for the cell with the
smallest nonzero number of candidates (first found wins ties); returns the
sentinel `(-1, -1)` when no cell has a nonempty candidate list. -/
def Sudoku.find_lowest_possibles (s : Sudoku) : Int × Int :=
  let scan := (List.range s.max_val).foldl (fun acc row =>
    (List.range s.max_val).foldl (fun (acc2 : Int × Int × Nat) col =>
      let len_possible := (s.getCell row col).possible.length
      if 0 < len_possible ∧ len_possible < acc2.2.2 then
        ((row : Int), (col : Int), len_possible)
      else acc2) acc)
    ((-1 : Int), (-1 : Int), s.max_val + 1)
  (scan.1, scan.2.1)

/-- `Sudoku.reached_dead_end`: some cell is undetermined yet has no candidates. -/
def Sudoku.reached_dead_end (s : Sudoku) : Bool :=
  (List.range s.max_val).any (fun r => (List.range s.max_val).any (fun c =>
    (s.getCell r c).value == 0 && (s.getCell r c).possible.length == 0))

/-- `Sudoku.solved`: every cell has a non-zero value. -/
def Sudoku.solved (s : Sudoku) : Bool :=
  (List.range s.max_val).all (fun r => (List.range s.max_val).all (fun c =>
    (s.getCell r c).value != 0))

/-! ### Termination measure

`cellWeight` is a potential: every successful `set_cell` strictly decreases
the total potential `Tstar`, and candidate elimination never increases it. -/

/-- Potential of a single cell: candidates left, with any (never produced by
the constructor, but representable) candidate `0` weighted heavily because
`Cell.set 0` refills the candidate list. -/
def cellWeight (c : Cell) : Nat :=
  c.possible.length + c.possible.count 0 * (c.max_val + 1)

/-- Potential of one row of cells. -/
def rowWeight (row : List Cell) : Nat := (row.map cellWeight).sum

/-- Total potential of a board. -/
def Sudoku.Tstar (s : Sudoku) : Nat := (s.cell.map rowWeight).sum

theorem cellWeight_remove_le (c : Cell) (v : Nat) :
    cellWeight (c.remove_from_possible v) ≤ cellWeight c := by
  unfold cellWeight Cell.remove_from_possible
  have h1 : (c.possible.erase v).length ≤ c.possible.length :=
    List.length_erase_le v c.possible
  have h2 : (c.possible.erase v).count 0 ≤ c.possible.count 0 :=
    (List.erase_sublist v c.possible).count_le 0
  simp only
  exact Nat.add_le_add h1 (Nat.mul_le_mul_right _ h2)

theorem sum_map_set_le {α : Type} (f : α → Nat) :
    ∀ (l : List α) (i : Nat) (x : α) (d : α), f x ≤ f (l.getD i d) →
      ((l.set i x).map f).sum ≤ (l.map f).sum := by
  intro l
  induction l with
  | nil => intro i x d _; simp
  | cons a t ih =>
    intro i x d h
    cases i with
    | zero =>
      simp only [List.getD_cons_zero] at h
      simp only [List.set_cons_zero, List.map_cons, List.sum_cons]
      exact Nat.add_le_add_right h _
    | succ i =>
      simp only [List.getD_cons_succ] at h
      simp only [List.set_cons_succ, List.map_cons, List.sum_cons]
      exact Nat.add_le_add_left (ih i x d h) _

theorem sum_map_set_lt {α : Type} (f : α → Nat) :
    ∀ (l : List α) (i : Nat) (x : α) (d : α), i < l.length →
      f x < f (l.getD i d) →
      ((l.set i x).map f).sum < (l.map f).sum := by
  intro l
  induction l with
  | nil => intro i x d hi _; simp at hi
  | cons a t ih =>
    intro i x d hi h
    cases i with
    | zero =>
      simp only [List.getD_cons_zero] at h
      simp only [List.set_cons_zero, List.map_cons, List.sum_cons]
      exact Nat.add_lt_add_right h _
    | succ i =>
      simp only [List.getD_cons_succ] at h
      simp only [List.length_cons, Nat.succ_lt_succ_iff] at hi
      simp only [List.set_cons_succ, List.map_cons, List.sum_cons]
      exact Nat.add_lt_add_left (ih i x d hi h) _

theorem Tstar_setCellAt_le (s : Sudoku) (r c : Nat) (x : Cell)
    (h : cellWeight x ≤ cellWeight (s.getCell r c)) :
    (s.setCellAt r c x).Tstar ≤ s.Tstar := by
  unfold Sudoku.Tstar Sudoku.setCellAt
  apply sum_map_set_le rowWeight s.cell r _ []
  exact sum_map_set_le cellWeight (s.cell.getD r []) c x cellDefault h

theorem Tstar_setCellAt_lt (s : Sudoku) (r c : Nat) (x : Cell)
    (hr : r < s.cell.length) (hc : c < (s.cell.getD r []).length)
    (h : cellWeight x < cellWeight (s.getCell r c)) :
    (s.setCellAt r c x).Tstar < s.Tstar := by
  unfold Sudoku.Tstar Sudoku.setCellAt
  apply sum_map_set_lt rowWeight s.cell r _ [] hr
  exact sum_map_set_lt cellWeight (s.cell.getD r []) c x cellDefault hc h

theorem Tstar_remove_step_le (t : Sudoku) (a b v : Nat) :
    (t.setCellAt a b ((t.getCell a b).remove_from_possible v)).Tstar ≤ t.Tstar :=
  Tstar_setCellAt_le t a b _ (cellWeight_remove_le _ v)

theorem foldl_measure_le {α β : Type} (m : α → Nat) (g : α → β → α)
    (hg : ∀ t b, m (g t b) ≤ m t) :
    ∀ (l : List β) (s : α), m (l.foldl g s) ≤ m s := by
  intro l
  induction l with
  | nil => intro s; simp
  | cons a t ih => intro s; exact le_trans (ih (g s a)) (hg s a)

theorem Tstar_remove_value_le (s : Sudoku) (v r c : Nat) :
    (s.remove_value_from_possibles v r c).Tstar ≤ s.Tstar := by
  have hrow : ∀ (l : List Nat) (t : Sudoku),
      (l.foldl (fun t2 c2 =>
        t2.setCellAt r c2 ((t2.getCell r c2).remove_from_possible v)) t).Tstar ≤ t.Tstar :=
    fun l t => foldl_measure_le _ _ (fun t2 b => Tstar_remove_step_le t2 r b v) l t
  have hcol : ∀ (l : List Nat) (t : Sudoku),
      (l.foldl (fun t2 r2 =>
        t2.setCellAt r2 c ((t2.getCell r2 c).remove_from_possible v)) t).Tstar ≤ t.Tstar :=
    fun l t => foldl_measure_le _ _ (fun t2 b => Tstar_remove_step_le t2 b c v) l t
  have hbox : ∀ (lr lc : List Nat) (t : Sudoku),
      (lr.foldl (fun t2 r2 => lc.foldl (fun t3 c2 =>
        t3.setCellAt r2 c2 ((t3.getCell r2 c2).remove_from_possible v)) t2) t).Tstar ≤
        t.Tstar :=
    fun lr lc t => foldl_measure_le _ _
      (fun t2 b => foldl_measure_le _ _ (fun t3 b2 => Tstar_remove_step_le t3 b b2 v) lc t2)
      lr t
  exact le_trans (hbox _ _ _) (le_trans (hcol _ _) (hrow _ _))

theorem mem_possible_in_range {s : Sudoku} {v r c : Nat}
    (h : v ∈ (s.getCell r c).possible) :
    r < s.cell.length ∧ c < (s.cell.getD r []).length := by
  unfold Sudoku.getCell at h
  constructor
  · by_contra hr
    rw [List.getD_eq_default _ _ (Nat.le_of_not_lt hr)] at h
    simp [cellDefault] at h
  · by_contra hc
    rw [List.getD_eq_default _ _ (Nat.le_of_not_lt hc)] at h
    simp [cellDefault] at h

theorem cellWeight_set_lt {c : Cell} {v : Nat} (h : v ∈ c.possible) :
    cellWeight (c.set v) < cellWeight c := by
  have hlen : 0 < c.possible.length := List.length_pos.mpr (List.ne_nil_of_mem h)
  by_cases hv : v = 0
  · subst hv
    have hcount : 0 < c.possible.count 0 := List.count_pos_iff.mpr h
    have hzero : (List.range' 1 c.max_val).count 0 = 0 := by
      apply List.count_eq_zero.mpr
      intro hmem
      rw [List.mem_range'_1] at hmem
      omega
    have hmul : c.max_val + 1 ≤ c.possible.count 0 * (c.max_val + 1) :=
      Nat.le_mul_of_pos_left _ hcount
    unfold Cell.set Cell.init cellWeight
    dsimp only
    rw [if_pos rfl, hzero, List.length_range']
    omega
  · unfold Cell.set Cell.init cellWeight
    dsimp only
    rw [if_neg hv]
    simp only [List.length_nil, List.count_nil, Nat.zero_mul, Nat.add_zero]
    omega

theorem set_cell_Tstar_lt {s : Sudoku} {v r c : Nat}
    (h : v ∈ (s.getCell r c).possible) :
    ((s.set_cell v r c).1).Tstar < s.Tstar := by
  obtain ⟨hr, hc⟩ := mem_possible_in_range h
  unfold Sudoku.set_cell
  rw [if_pos h]
  simp only
  apply lt_of_le_of_lt (Tstar_remove_value_le _ v r c)
  have : ({ s.setCellAt r c ((s.getCell r c).set v) with
      cells_filled := (s.setCellAt r c ((s.getCell r c).set v)).cells_filled + 1 } :
        Sudoku).Tstar = (s.setCellAt r c ((s.getCell r c).set v)).Tstar := rfl
  rw [this]
  exact Tstar_setCellAt_lt s r c _ hr hc (cellWeight_set_lt h)

theorem find_one_possible_spec {s : Sudoku} {r c : Nat}
    (h : s.find_one_possible = some (r, c)) :
    (s.getCell r c).possible.length = 1 ∧ r < s.max_val ∧ c < s.max_val := by
  unfold Sudoku.find_one_possible at h
  obtain ⟨row, hrow, hf⟩ := List.exists_of_findSome?_eq_some h
  rw [Option.map_eq_some'] at hf
  obtain ⟨col, hcol, heq⟩ := hf
  cases heq
  have hp := List.find?_some hcol
  have hmem := List.mem_of_find?_eq_some hcol
  rw [List.mem_range] at hrow hmem
  exact ⟨by simpa using hp, hrow, hmem⟩

set_option linter.unusedVariables false in
/-- `Sudoku.fill_in_all_knowns`: repeatedly find a cell with exactly one
candidate and assign that candidate (`possible[0]`), until none remains. -/
def Sudoku.fill_in_all_knowns (s : Sudoku) : Sudoku :=
  match h : s.find_one_possible with
  | none => s
  | some (row, col) =>
    ((s.set_cell ((s.getCell row col).possible.headD 0) row col).1).fill_in_all_knowns
termination_by s.Tstar
decreasing_by
  apply set_cell_Tstar_lt
  have hlen := (find_one_possible_spec h).1
  cases hp : (s.getCell row col).possible with
  | nil => rw [hp] at hlen; simp at hlen
  | cons a t => simp [hp]

theorem fill_Tstar_le (s : Sudoku) : (s.fill_in_all_knowns).Tstar ≤ s.Tstar := by
  induction s using Sudoku.fill_in_all_knowns.induct with
  | case1 s h =>
    rw [Sudoku.fill_in_all_knowns, h]
  | case2 s row col h ih =>
    rw [Sudoku.fill_in_all_knowns, h]
    refine le_trans ih (le_of_lt (set_cell_Tstar_lt ?_))
    have hlen := (find_one_possible_spec h).1
    cases hp : (s.getCell row col).possible with
    | nil => rw [hp] at hlen; simp at hlen
    | cons a t => simp [hp]

theorem cellWeight_le_Tstar {s : Sudoku} {r c : Nat}
    (hr : r < s.cell.length) (hc : c < (s.cell.getD r []).length) :
    cellWeight (s.getCell r c) ≤ s.Tstar := by
  have h1 : cellWeight (s.getCell r c) ≤ rowWeight (s.cell.getD r []) := by
    unfold Sudoku.getCell rowWeight
    apply List.single_le_sum (fun x _ => Nat.zero_le x)
    exact List.mem_map_of_mem cellWeight
      (by rw [List.getD_eq_getElem _ _ hc]; exact List.getElem_mem hc)
  have h2 : rowWeight (s.cell.getD r []) ≤ s.Tstar := by
    unfold Sudoku.Tstar
    apply List.single_le_sum (fun x _ => Nat.zero_le x)
    exact List.mem_map_of_mem rowWeight
      (by rw [List.getD_eq_getElem _ _ hr]; exact List.getElem_mem hr)
  exact le_trans h1 h2

/-! ### Stack measure for the search loop -/

/-- Largest board potential on the work list. -/
def stackMax (l : List Sudoku) : Nat := l.foldr (fun p m => max p.Tstar m) 0

theorem Tstar_le_stackMax {l : List Sudoku} {p : Sudoku} (h : p ∈ l) :
    p.Tstar ≤ stackMax l := by
  induction l with
  | nil => simp at h
  | cons a t ih =>
    rcases List.mem_cons.mp h with rfl | h2
    · exact le_max_left _ _
    · exact le_trans (ih h2) (le_max_right _ _)

theorem stackMax_le_of_forall {l : List Sudoku} {m : Nat}
    (h : ∀ p ∈ l, p.Tstar ≤ m) : stackMax l ≤ m := by
  induction l with
  | nil => exact Nat.zero_le m
  | cons a t ih =>
    exact max_le (h a (List.mem_cons_self a t))
      (ih (fun p hp => h p (List.mem_cons_of_mem a hp)))

/-- Termination measure for the search loop: an exponential tower dominated
by the largest board potential currently on the work list. -/
def stackMeasure (l : List Sudoku) : Nat :=
  (l.map (fun p => (stackMax l + 2) ^ (p.Tstar + 1))).sum

theorem sum_pow_mono_base {l : List Sudoku} {b1 b2 : Nat} (hb : b1 ≤ b2) :
    (l.map (fun p => b1 ^ (p.Tstar + 1))).sum ≤
      (l.map (fun p => b2 ^ (p.Tstar + 1))).sum := by
  induction l with
  | nil => simp
  | cons a t ih =>
    simp only [List.map_cons, List.sum_cons]
    exact Nat.add_le_add (Nat.pow_le_pow_left hb _) ih

theorem stackMeasure_tail_lt (p : Sudoku) (rest : List Sudoku) :
    stackMeasure rest < stackMeasure (p :: rest) := by
  unfold stackMeasure
  have hb : stackMax rest + 2 ≤ stackMax (p :: rest) + 2 := by
    have : stackMax rest ≤ stackMax (p :: rest) :=
      stackMax_le_of_forall (fun q hq => Tstar_le_stackMax (List.mem_cons_of_mem p hq))
    omega
  apply lt_of_le_of_lt (sum_pow_mono_base hb)
  simp only [List.map_cons, List.sum_cons]
  have : 0 < (stackMax (p :: rest) + 2) ^ (p.Tstar + 1) :=
    Nat.pos_pow_of_pos _ (by omega)
  omega

theorem stackMeasure_branch_lt (p : Sudoku) (rest : List Sudoku) (row col : Nat) :
    stackMeasure ((((p.fill_in_all_knowns).getCell row col).possible.map
      (fun v => ((p.fill_in_all_knowns).set_cell v row col).1)).reverse ++ rest) <
    stackMeasure (p :: rest) := by
  set p' := p.fill_in_all_knowns with hp'
  set L := (p'.getCell row col).possible with hL
  set forks := L.map (fun v => (p'.set_cell v row col).1) with hforks
  have hT' : p'.Tstar ≤ p.Tstar := fill_Tstar_le p
  have hfork : ∀ q ∈ forks, q.Tstar < p'.Tstar := by
    intro q hq
    rw [hforks] at hq
    obtain ⟨v, hv, rfl⟩ := List.mem_map.mp hq
    exact set_cell_Tstar_lt hv
  have hLlen : L.length ≤ p'.Tstar := by
    by_cases hLnil : L = []
    · simp [hLnil]
    · obtain ⟨a, hmem⟩ := List.exists_mem_of_ne_nil L hLnil
      rw [hL] at hmem
      obtain ⟨hr, hc⟩ := mem_possible_in_range hmem
      have h1 : L.length ≤ cellWeight (p'.getCell row col) := by
        rw [hL]; unfold cellWeight; exact Nat.le_add_right _ _
      exact le_trans h1 (cellWeight_le_Tstar hr hc)
  set base := stackMax (p :: rest) + 2 with hbase
  have hTbase : p'.Tstar < base := by
    have : p.Tstar ≤ stackMax (p :: rest) := Tstar_le_stackMax (List.mem_cons_self p rest)
    omega
  have hbasepos : 1 ≤ base := by omega
  have hmono : stackMax (forks.reverse ++ rest) + 2 ≤ base := by
    have : stackMax (forks.reverse ++ rest) ≤ stackMax (p :: rest) := by
      apply stackMax_le_of_forall
      intro q hq
      rcases List.mem_append.mp hq with hq1 | hq2
      · have hq1' := List.mem_reverse.mp hq1
        exact le_trans (le_of_lt (hfork q hq1'))
          (le_trans hT' (Tstar_le_stackMax (List.mem_cons_self p rest)))
      · exact Tstar_le_stackMax (List.mem_cons_of_mem p hq2)
    omega
  have hforksum : ((forks.reverse).map (fun q => base ^ (q.Tstar + 1))).sum <
      base ^ (p.Tstar + 1) := by
    have h1 : ∀ x ∈ (forks.reverse).map (fun q => base ^ (q.Tstar + 1)),
        x ≤ base ^ p'.Tstar := by
      intro x hx
      obtain ⟨q, hq, rfl⟩ := List.mem_map.mp hx
      have hqf := hfork q (List.mem_reverse.mp hq)
      exact Nat.pow_le_pow_right hbasepos (by omega)
    have h2 := List.sum_le_card_nsmul _ _ h1
    have hlen2 : ((forks.reverse).map (fun q => base ^ (q.Tstar + 1))).length =
        L.length := by
      rw [List.length_map, List.length_reverse, hforks, List.length_map]
    rw [hlen2] at h2
    have h3 : L.length • base ^ p'.Tstar ≤ p'.Tstar * base ^ p'.Tstar := by
      rw [smul_eq_mul]
      exact Nat.mul_le_mul_right _ hLlen
    have hXpos : 0 < base ^ p'.Tstar := Nat.pos_pow_of_pos _ (by omega)
    have h4 : p'.Tstar * base ^ p'.Tstar < base * base ^ p'.Tstar :=
      (Nat.mul_lt_mul_right hXpos).mpr hTbase
    have h5 : base * base ^ p'.Tstar = base ^ (p'.Tstar + 1) := by
      rw [Nat.pow_succ]; ring
    have h6 : base ^ (p'.Tstar + 1) ≤ base ^ (p.Tstar + 1) :=
      Nat.pow_le_pow_right hbasepos (by omega)
    omega
  unfold stackMeasure
  apply lt_of_le_of_lt (sum_pow_mono_base hmono)
  simp only [← hbase]
  rw [List.map_append, List.sum_append, List.map_cons, List.sum_cons]
  omega

/-- The `while` loop inside `Sudoku.solve`, operating on the work list
`puzzles` (the Lean list head is the Python list's top of stack).  Forks are
pushed in ascending candidate order, so the fork of the largest candidate is
popped (i.e. appears at the head) first. -/
def solveLoop (puzzles : List Sudoku) : Option Sudoku :=
  match puzzles with
  | [] => none
  | p :: rest =>
    let puzzle := p.fill_in_all_knowns
    if puzzle.solved then some puzzle
    else if puzzle.reached_dead_end then solveLoop rest
    else
      let rc := puzzle.find_lowest_possibles
      let row := rc.1.toNat
      let col := rc.2.toNat
      let forks := (puzzle.getCell row col).possible.map
        (fun value => (puzzle.set_cell value row col).1)
      solveLoop (forks.reverse ++ rest)
termination_by stackMeasure puzzles
decreasing_by
  · exact stackMeasure_tail_lt p rest
  · exact stackMeasure_branch_lt p rest _ _

/-- `Sudoku.solve`: push a deep copy of the board and run the search loop;
returns the solved board or `none` when every branch dead-ends. -/
def Sudoku.solve (s : Sudoku) : Option Sudoku := solveLoop [s]

/-! ### Pointwise characterization of cell updates -/

theorem getD_set_ne {α : Type} (l : List α) (i j : Nat) (x d : α) (h : i ≠ j) :
    (l.set i x).getD j d = l.getD j d := by
  rw [List.getD_eq_getElem?_getD, List.getD_eq_getElem?_getD, List.getElem?_set_ne h]

theorem getD_set_self {α : Type} (l : List α) (i : Nat) (x d : α) (h : i < l.length) :
    (l.set i x).getD i d = x := by
  rw [List.getD_eq_getElem?_getD, List.getElem?_set_self h]
  rfl

theorem getCell_setCellAt_ne {s : Sudoku} {r c r' c' : Nat} (x : Cell)
    (h : (r', c') ≠ (r, c)) :
    (s.setCellAt r c x).getCell r' c' = s.getCell r' c' := by
  unfold Sudoku.setCellAt Sudoku.getCell
  by_cases hr : r' = r
  · subst hr
    have hc : c' ≠ c := by
      intro hc; exact h (by rw [hc])
    by_cases hlen : r' < s.cell.length
    · rw [getD_set_self _ _ _ _ hlen, getD_set_ne _ _ _ _ _ (Ne.symm hc)]
    · rw [List.set_eq_of_length_le (Nat.le_of_not_lt hlen)]
  · rw [getD_set_ne _ _ _ _ _ (Ne.symm hr)]

theorem getCell_setCellAt_self {s : Sudoku} {r c : Nat} (x : Cell)
    (hr : r < s.cell.length) (hc : c < (s.cell.getD r []).length) :
    (s.setCellAt r c x).getCell r c = x := by
  unfold Sudoku.setCellAt Sudoku.getCell
  rw [getD_set_self _ _ _ _ hr, getD_set_self _ _ _ _ hc]

theorem remove_cellDefault (v : Nat) :
    cellDefault.remove_from_possible v = cellDefault := rfl

theorem getCell_default_of_not_lt_row {s : Sudoku} {r c : Nat}
    (hr : ¬ r < s.cell.length) : s.getCell r c = cellDefault := by
  unfold Sudoku.getCell
  rw [List.getD_eq_default _ _ (Nat.le_of_not_lt hr)]
  rfl

theorem getCell_default_of_not_lt_col {s : Sudoku} {r c : Nat}
    (hc : ¬ c < (s.cell.getD r []).length) : s.getCell r c = cellDefault := by
  unfold Sudoku.getCell
  rw [List.getD_eq_default _ _ (Nat.le_of_not_lt hc)]

theorem getCell_setCellAt_remove_self (s : Sudoku) (r c v : Nat) :
    (s.setCellAt r c ((s.getCell r c).remove_from_possible v)).getCell r c =
      (s.getCell r c).remove_from_possible v := by
  by_cases hr : r < s.cell.length
  · by_cases hc : c < (s.cell.getD r []).length
    · exact getCell_setCellAt_self _ hr hc
    · have h0 : s.getCell r c = cellDefault := getCell_default_of_not_lt_col hc
      have h1 : (s.setCellAt r c ((s.getCell r c).remove_from_possible v)).getCell r c =
          cellDefault := by
        apply getCell_default_of_not_lt_col
        unfold Sudoku.setCellAt
        rw [getD_set_self _ _ _ _ hr, List.length_set]
        exact hc
      rw [h1, h0, remove_cellDefault]
  · have h0 : s.getCell r c = cellDefault := getCell_default_of_not_lt_row hr
    have h1 : (s.setCellAt r c ((s.getCell r c).remove_from_possible v)).getCell r c =
        cellDefault := by
      apply getCell_default_of_not_lt_row
      unfold Sudoku.setCellAt
      rw [List.length_set]
      exact hr
    rw [h1, h0, remove_cellDefault]

/-- Folding the per-cell elimination step over a duplicate-free list of
positions removes `v` exactly from the listed cells. -/
theorem foldl_remove_pairs (v : Nat) :
    ∀ (l : List (Nat × Nat)), l.Nodup → ∀ (s : Sudoku) (r' c' : Nat),
    ((l.foldl (fun t rc => t.setCellAt rc.1 rc.2
        ((t.getCell rc.1 rc.2).remove_from_possible v)) s)).getCell r' c'
    = if (r', c') ∈ l then (s.getCell r' c').remove_from_possible v
      else s.getCell r' c' := by
  intro l
  induction l with
  | nil => intro _ s r' c'; simp
  | cons a t ih =>
    intro hnd s r' c'
    obtain ⟨ha, hndt⟩ := List.nodup_cons.mp hnd
    simp only [List.foldl_cons]
    rw [ih hndt]
    by_cases h1 : (r', c') = a
    · have hnt : (r', c') ∉ t := by rw [h1]; exact ha
      rw [if_neg hnt, if_pos (h1 ▸ List.mem_cons_self a t)]
      have : (r', c') = (a.1, a.2) := by rw [h1]
      rw [show r' = a.1 from congrArg Prod.fst this,
        show c' = a.2 from congrArg Prod.snd this]
      exact getCell_setCellAt_remove_self s a.1 a.2 v
    · have hne : (r', c') ≠ (a.1, a.2) := by simpa using h1
      rw [getCell_setCellAt_ne _ hne]
      by_cases h2 : (r', c') ∈ t
      · rw [if_pos h2, if_pos (List.mem_cons_of_mem a h2)]
      · rw [if_neg h2, if_neg (by
          intro hmem
          rcases List.mem_cons.mp hmem with h3 | h3
          · exact h1 h3
          · exact h2 h3)]

theorem foldl_field_eq {β : Type} (f : Sudoku → Nat) (g : Sudoku → β → Sudoku)
    (hg : ∀ t b, f (g t b) = f t) : ∀ (l : List β) (s : Sudoku), f (l.foldl g s) = f s := by
  intro l
  induction l with
  | nil => intro s; rfl
  | cons a t ih => intro s; rw [List.foldl_cons, ih, hg]

/-- One fixed-row elimination pass over a duplicate-free list of columns. -/
theorem row_fold_getCell (v row : Nat) (lc : List Nat) (hlc : lc.Nodup)
    (s : Sudoku) (r' c' : Nat) :
    ((lc.foldl (fun t c2 => t.setCellAt row c2
        ((t.getCell row c2).remove_from_possible v)) s)).getCell r' c'
    = if r' = row ∧ c' ∈ lc then (s.getCell r' c').remove_from_possible v
      else s.getCell r' c' := by
  have hconv : lc.foldl (fun t c2 => t.setCellAt row c2
      ((t.getCell row c2).remove_from_possible v)) s
      = (lc.map (fun c2 => (row, c2))).foldl (fun t rc => t.setCellAt rc.1 rc.2
          ((t.getCell rc.1 rc.2).remove_from_possible v)) s := by
    rw [List.foldl_map]
  have hnd : (lc.map (fun c2 => (row, c2))).Nodup :=
    hlc.map (fun a b h => congrArg Prod.snd h)
  rw [hconv, foldl_remove_pairs v _ hnd s r' c']
  have hmem : ((r', c') ∈ lc.map (fun c2 => (row, c2))) ↔ (r' = row ∧ c' ∈ lc) := by
    rw [List.mem_map]
    constructor
    · rintro ⟨c2, hc2, heq⟩
      injection heq with he1 he2
      exact ⟨he1.symm, he2 ▸ hc2⟩
    · rintro ⟨h1, h2⟩
      exact ⟨c', h2, by rw [h1]⟩
  simp only [hmem]

/-- One fixed-column elimination pass over a duplicate-free list of rows. -/
theorem col_fold_getCell (v col : Nat) (lr : List Nat) (hlr : lr.Nodup)
    (s : Sudoku) (r' c' : Nat) :
    ((lr.foldl (fun t r2 => t.setCellAt r2 col
        ((t.getCell r2 col).remove_from_possible v)) s)).getCell r' c'
    = if c' = col ∧ r' ∈ lr then (s.getCell r' c').remove_from_possible v
      else s.getCell r' c' := by
  have hconv : lr.foldl (fun t r2 => t.setCellAt r2 col
      ((t.getCell r2 col).remove_from_possible v)) s
      = (lr.map (fun r2 => (r2, col))).foldl (fun t rc => t.setCellAt rc.1 rc.2
          ((t.getCell rc.1 rc.2).remove_from_possible v)) s := by
    rw [List.foldl_map]
  have hnd : (lr.map (fun r2 => (r2, col))).Nodup :=
    hlr.map (fun a b h => congrArg Prod.fst h)
  rw [hconv, foldl_remove_pairs v _ hnd s r' c']
  have hmem : ((r', c') ∈ lr.map (fun r2 => (r2, col))) ↔ (c' = col ∧ r' ∈ lr) := by
    rw [List.mem_map]
    constructor
    · rintro ⟨r2, hr2, heq⟩
      injection heq with he1 he2
      exact ⟨he2.symm, he1 ▸ hr2⟩
    · rintro ⟨h1, h2⟩
      exact ⟨r', h2, by rw [h1]⟩
  simp only [hmem]

/-- The box elimination pass: a nested fold over duplicate-free row and
column lists. -/
theorem box_fold_getCell (v : Nat) (lc : List Nat) (hlc : lc.Nodup) :
    ∀ (lr : List Nat), lr.Nodup → ∀ (s : Sudoku) (r' c' : Nat),
    ((lr.foldl (fun t r2 => lc.foldl (fun t2 c2 => t2.setCellAt r2 c2
        ((t2.getCell r2 c2).remove_from_possible v)) t) s)).getCell r' c'
    = if r' ∈ lr ∧ c' ∈ lc then (s.getCell r' c').remove_from_possible v
      else s.getCell r' c' := by
  intro lr
  induction lr with
  | nil => intro _ s r' c'; simp
  | cons a tr ih =>
    intro hnd s r' c'
    obtain ⟨ha, hndt⟩ := List.nodup_cons.mp hnd
    rw [List.foldl_cons, ih hndt]
    rw [row_fold_getCell v a lc hlc]
    by_cases h1 : r' = a <;> by_cases h2 : c' ∈ lc <;> by_cases h3 : r' ∈ tr <;>
      simp_all [List.mem_cons]

/-- Membership in the box that contains `(row, col)`. -/
def inBoxOf (b row col r' c' : Nat) : Prop :=
  (row / b * b ≤ r' ∧ r' < row / b * b + b) ∧ (col / b * b ≤ c' ∧ c' < col / b * b + b)

instance (b row col r' c' : Nat) : Decidable (inBoxOf b row col r' c') := by
  unfold inBoxOf; infer_instance

/-- Apply the elimination to a cell only when `p` holds. -/
def condRemove (p : Prop) [Decidable p] (c0 : Cell) (v : Nat) : Cell :=
  if p then c0.remove_from_possible v else c0

/-- Pointwise effect of `remove_value_from_possibles`: the cell at
`(r', c')` has `v` erased once per pass covering it (row pass, then column
pass, then box pass); other cells are untouched. -/
theorem rvfp_getCell (s : Sudoku) (v row col r' c' : Nat) :
    (s.remove_value_from_possibles v row col).getCell r' c' =
    condRemove (inBoxOf s.box_size row col r' c')
      (condRemove (c' = col ∧ r' < s.max_val)
        (condRemove (r' = row ∧ c' < s.max_val) (s.getCell r' c') v) v) v := by
  simp only [Sudoku.remove_value_from_possibles]
  have hmax1 : ∀ (l : List Nat) (t : Sudoku),
      (l.foldl (fun t2 c2 => t2.setCellAt row c2
        ((t2.getCell row c2).remove_from_possible v)) t).max_val = t.max_val :=
    fun l t => foldl_field_eq Sudoku.max_val
      (fun t2 c2 => t2.setCellAt row c2 ((t2.getCell row c2).remove_from_possible v))
      (fun _ _ => rfl) l t
  have hbox1 : ∀ (l : List Nat) (t : Sudoku),
      (l.foldl (fun t2 c2 => t2.setCellAt row c2
        ((t2.getCell row c2).remove_from_possible v)) t).box_size = t.box_size :=
    fun l t => foldl_field_eq Sudoku.box_size
      (fun t2 c2 => t2.setCellAt row c2 ((t2.getCell row c2).remove_from_possible v))
      (fun _ _ => rfl) l t
  have hbox2 : ∀ (l : List Nat) (t : Sudoku),
      (l.foldl (fun t2 r2 => t2.setCellAt r2 col
        ((t2.getCell r2 col).remove_from_possible v)) t).box_size = t.box_size :=
    fun l t => foldl_field_eq Sudoku.box_size
      (fun t2 r2 => t2.setCellAt r2 col ((t2.getCell r2 col).remove_from_possible v))
      (fun _ _ => rfl) l t
  simp only [hmax1, hbox1, hbox2]
  rw [box_fold_getCell v _ (List.nodup_range' _ _) _ (List.nodup_range' _ _),
    col_fold_getCell v col _ (List.nodup_range _),
    row_fold_getCell v row _ (List.nodup_range _)]
  simp only [List.mem_range, List.mem_range'_1]
  unfold condRemove inBoxOf
  rfl

/-! ### Metadata and shape preservation -/

/-- `t` agrees with `s` on all fields except possibly the grid contents. -/
def sameMeta (s t : Sudoku) : Prop :=
  t.box_size = s.box_size ∧ t.max_val = s.max_val ∧ t.cells_filled = s.cells_filled

theorem sameMeta_trans {a b c : Sudoku} (h1 : sameMeta a b) (h2 : sameMeta b c) :
    sameMeta a c :=
  ⟨h2.1.trans h1.1, h2.2.1.trans h1.2.1, h2.2.2.trans h1.2.2⟩

theorem sameMeta_foldl {β : Type} (g : Sudoku → β → Sudoku)
    (hg : ∀ t b, sameMeta t (g t b)) : ∀ (l : List β) (s : Sudoku), sameMeta s (l.foldl g s) := by
  intro l
  induction l with
  | nil => intro s; exact ⟨rfl, rfl, rfl⟩
  | cons a t ih => intro s; exact sameMeta_trans (hg s a) (ih (g s a))

theorem rvfp_sameMeta (s : Sudoku) (v r c : Nat) :
    sameMeta s (s.remove_value_from_possibles v r c) := by
  simp only [Sudoku.remove_value_from_possibles]
  have step1 : ∀ (l : List Nat) (t : Sudoku), sameMeta t
      (l.foldl (fun t2 c2 => t2.setCellAt r c2
        ((t2.getCell r c2).remove_from_possible v)) t) :=
    fun l t => sameMeta_foldl
      (fun t2 c2 => t2.setCellAt r c2 ((t2.getCell r c2).remove_from_possible v))
      (fun _ _ => ⟨rfl, rfl, rfl⟩) l t
  have step2 : ∀ (l : List Nat) (t : Sudoku), sameMeta t
      (l.foldl (fun t2 r2 => t2.setCellAt r2 c
        ((t2.getCell r2 c).remove_from_possible v)) t) :=
    fun l t => sameMeta_foldl
      (fun t2 r2 => t2.setCellAt r2 c ((t2.getCell r2 c).remove_from_possible v))
      (fun _ _ => ⟨rfl, rfl, rfl⟩) l t
  have step3 : ∀ (lr lc : List Nat) (t : Sudoku), sameMeta t
      (lr.foldl (fun t2 r2 => lc.foldl (fun t3 c2 => t3.setCellAt r2 c2
        ((t3.getCell r2 c2).remove_from_possible v)) t2) t) :=
    fun lr lc t => sameMeta_foldl
      (fun t2 r2 => lc.foldl (fun t3 c2 => t3.setCellAt r2 c2
        ((t3.getCell r2 c2).remove_from_possible v)) t2)
      (fun t2 b => sameMeta_foldl
        (fun t3 c2 => t3.setCellAt b c2 ((t3.getCell b c2).remove_from_possible v))
        (fun _ _ => ⟨rfl, rfl, rfl⟩) lc t2) lr t
  exact sameMeta_trans (sameMeta_trans (step1 _ _) (step2 _ _)) (step3 _ _ _)

/-- `t` has rows of the same lengths as `s`. -/
def sameShape (s t : Sudoku) : Prop :=
  t.cell.length = s.cell.length ∧
  ∀ r0, (t.cell.getD r0 []).length = (s.cell.getD r0 []).length

theorem sameShape_trans {a b c : Sudoku} (h1 : sameShape a b) (h2 : sameShape b c) :
    sameShape a c :=
  ⟨h2.1.trans h1.1, fun r0 => (h2.2 r0).trans (h1.2 r0)⟩

theorem setCellAt_sameShape (s : Sudoku) (r c : Nat) (x : Cell) :
    sameShape s (s.setCellAt r c x) := by
  constructor
  · unfold Sudoku.setCellAt
    exact List.length_set _ _ _
  · intro r0
    unfold Sudoku.setCellAt
    by_cases hr : r0 = r
    · subst hr
      by_cases hlen : r0 < s.cell.length
      · rw [getD_set_self _ _ _ _ hlen, List.length_set]
      · rw [List.set_eq_of_length_le (Nat.le_of_not_lt hlen)]
    · rw [getD_set_ne _ _ _ _ _ (fun he => hr he.symm)]

theorem sameShape_foldl {β : Type} (g : Sudoku → β → Sudoku)
    (hg : ∀ t b, sameShape t (g t b)) : ∀ (l : List β) (s : Sudoku), sameShape s (l.foldl g s) := by
  intro l
  induction l with
  | nil => intro s; exact ⟨rfl, fun _ => rfl⟩
  | cons a t ih => intro s; exact sameShape_trans (hg s a) (ih (g s a))

theorem rvfp_sameShape (s : Sudoku) (v r c : Nat) :
    sameShape s (s.remove_value_from_possibles v r c) := by
  simp only [Sudoku.remove_value_from_possibles]
  have step1 : ∀ (l : List Nat) (t : Sudoku), sameShape t
      (l.foldl (fun t2 c2 => t2.setCellAt r c2
        ((t2.getCell r c2).remove_from_possible v)) t) :=
    fun l t => sameShape_foldl
      (fun t2 c2 => t2.setCellAt r c2 ((t2.getCell r c2).remove_from_possible v))
      (fun t2 b2 => setCellAt_sameShape t2 _ _ _) l t
  have step2 : ∀ (l : List Nat) (t : Sudoku), sameShape t
      (l.foldl (fun t2 r2 => t2.setCellAt r2 c
        ((t2.getCell r2 c).remove_from_possible v)) t) :=
    fun l t => sameShape_foldl
      (fun t2 r2 => t2.setCellAt r2 c ((t2.getCell r2 c).remove_from_possible v))
      (fun t2 b2 => setCellAt_sameShape t2 _ _ _) l t
  have step3 : ∀ (lr lc : List Nat) (t : Sudoku), sameShape t
      (lr.foldl (fun t2 r2 => lc.foldl (fun t3 c2 => t3.setCellAt r2 c2
        ((t3.getCell r2 c2).remove_from_possible v)) t2) t) :=
    fun lr lc t => sameShape_foldl
      (fun t2 r2 => lc.foldl (fun t3 c2 => t3.setCellAt r2 c2
        ((t3.getCell r2 c2).remove_from_possible v)) t2)
      (fun t2 b => sameShape_foldl
        (fun t3 c2 => t3.setCellAt b c2 ((t3.getCell b c2).remove_from_possible v))
        (fun t3 b2 => setCellAt_sameShape t3 _ _ _) lc t2) lr t
  exact sameShape_trans (sameShape_trans (step1 _ _) (step2 _ _)) (step3 _ _ _)

/-! ### Characterization of `set_cell` -/

theorem set_cell_false {s : Sudoku} {v r c : Nat}
    (h : v ∉ (s.getCell r c).possible) :
    s.set_cell v r c = (s, false) := by
  unfold Sudoku.set_cell
  rw [if_neg h]

theorem set_cell_true_snd {s : Sudoku} {v r c : Nat}
    (h : v ∈ (s.getCell r c).possible) :
    (s.set_cell v r c).2 = true := by
  unfold Sudoku.set_cell
  rw [if_pos h]

/-- Full pointwise description of a successful assignment: the target cell
is reinitialized with `value`, then `value` is eliminated from the cells of
the shared row, column and box. -/
theorem set_cell_true_getCell {s : Sudoku} {v r c : Nat}
    (h : v ∈ (s.getCell r c).possible) (r' c' : Nat) :
    ((s.set_cell v r c).1).getCell r' c' =
    condRemove (inBoxOf s.box_size r c r' c')
      (condRemove (c' = c ∧ r' < s.max_val)
        (condRemove (r' = r ∧ c' < s.max_val)
          (if (r', c') = (r, c) then (s.getCell r c).set v else s.getCell r' c') v) v) v := by
  obtain ⟨hr, hc⟩ := mem_possible_in_range h
  unfold Sudoku.set_cell
  rw [if_pos h]
  simp only
  rw [rvfp_getCell]
  have e4 : (s.setCellAt r c ((s.getCell r c).set v)).getCell r' c' =
      if (r', c') = (r, c) then (s.getCell r c).set v else s.getCell r' c' := by
    by_cases hrc : (r', c') = (r, c)
    · rw [if_pos hrc]
      have h1 : r' = r := congrArg Prod.fst hrc
      have h2 : c' = c := congrArg Prod.snd hrc
      subst h1; subst h2
      exact getCell_setCellAt_self _ hr hc
    · rw [if_neg hrc]
      exact getCell_setCellAt_ne _ hrc
  have e3 : ({ s.setCellAt r c ((s.getCell r c).set v) with
      cells_filled := (s.setCellAt r c ((s.getCell r c).set v)).cells_filled + 1 } :
        Sudoku).getCell r' c'
      = (s.setCellAt r c ((s.getCell r c).set v)).getCell r' c' := rfl
  rw [e3, e4]
  rfl

theorem set_cell_true_meta {s : Sudoku} {v r c : Nat}
    (h : v ∈ (s.getCell r c).possible) :
    ((s.set_cell v r c).1).box_size = s.box_size ∧
    ((s.set_cell v r c).1).max_val = s.max_val ∧
    ((s.set_cell v r c).1).cells_filled = s.cells_filled + 1 := by
  unfold Sudoku.set_cell
  rw [if_pos h]
  simp only
  obtain ⟨h1, h2, h3⟩ := rvfp_sameMeta ({ s.setCellAt r c ((s.getCell r c).set v) with
    cells_filled := (s.setCellAt r c ((s.getCell r c).set v)).cells_filled + 1 } : Sudoku) v r c
  exact ⟨h1, h2, h3⟩

theorem set_cell_true_shape {s : Sudoku} {v r c : Nat}
    (h : v ∈ (s.getCell r c).possible) :
    sameShape s ((s.set_cell v r c).1) := by
  unfold Sudoku.set_cell
  rw [if_pos h]
  simp only
  refine sameShape_trans ?_ (rvfp_sameShape _ v r c)
  exact setCellAt_sameShape s r c _

theorem condRemove_value (p : Prop) [Decidable p] (c0 : Cell) (v : Nat) :
    (condRemove p c0 v).value = c0.value := by
  unfold condRemove
  split <;> rfl

theorem condRemove_max_val (p : Prop) [Decidable p] (c0 : Cell) (v : Nat) :
    (condRemove p c0 v).max_val = c0.max_val := by
  unfold condRemove
  split <;> rfl

theorem condRemove_possible_sublist (p : Prop) [Decidable p] (c0 : Cell) (v : Nat) :
    (condRemove p c0 v).possible.Sublist c0.possible := by
  unfold condRemove
  split
  · exact List.erase_sublist v c0.possible
  · exact List.Sublist.refl _

/-! ### The board invariant -/

/-- Two positions are peers when they share a row, a column, or a
`b × b` box (the box is found by integer division, as in the code). -/
def Peers (b r c r2 c2 : Nat) : Prop :=
  r = r2 ∨ c = c2 ∨ (r / b = r2 / b ∧ c / b = c2 / b)

theorem Peers_symm {b r c r2 c2 : Nat} (h : Peers b r c r2 c2) :
    Peers b r2 c2 r c := by
  rcases h with h | h | ⟨h1, h2⟩
  · exact Or.inl h.symm
  · exact Or.inr (Or.inl h.symm)
  · exact Or.inr (Or.inr ⟨h1.symm, h2.symm⟩)

/-- Number of determined cells, counted over the `max_val × max_val` grid. -/
def filledCount (s : Sudoku) : Nat :=
  ((List.range s.max_val).map (fun r =>
    ((List.range s.max_val).map (fun c =>
      if (s.getCell r c).value = 0 then 0 else 1)).sum)).sum

/-- The invariant maintained by every board the engine can construct:
correct dimensions, candidate lists sorted within `[1, max_val]`, determined
cells have no candidates, no determined cell conflicts with a peer (its
value is neither a peer's value nor among a peer's candidates), and
`cells_filled` caches the number of determined cells. -/
structure Sudoku.WF (s : Sudoku) : Prop where
  boxes : s.max_val = s.box_size ^ 2
  rows_len : s.cell.length = s.max_val
  cols_len : ∀ r, r < s.max_val → (s.cell.getD r []).length = s.max_val
  cmax : ∀ r c, r < s.max_val → c < s.max_val → (s.getCell r c).max_val = s.max_val
  sorted : ∀ r c, r < s.max_val → c < s.max_val →
    (s.getCell r c).possible.Pairwise (· < ·)
  bounds : ∀ r c, r < s.max_val → c < s.max_val →
    ∀ w ∈ (s.getCell r c).possible, 1 ≤ w ∧ w ≤ s.max_val
  vempty : ∀ r c, r < s.max_val → c < s.max_val →
    (s.getCell r c).value ≠ 0 → (s.getCell r c).possible = []
  peer : ∀ r c r2 c2, r < s.max_val → c < s.max_val → r2 < s.max_val → c2 < s.max_val →
    (r, c) ≠ (r2, c2) → Peers s.box_size r c r2 c2 → (s.getCell r c).value ≠ 0 →
    (s.getCell r c).value ∉ (s.getCell r2 c2).possible ∧
    (s.getCell r2 c2).value ≠ (s.getCell r c).value
  filled : s.cells_filled = filledCount s

theorem sorted_nodup {l : List Nat} (h : l.Pairwise (· < ·)) : l.Nodup :=
  h.imp Nat.ne_of_lt

theorem div_mul_interval (a b : Nat) (hb : 0 < b) :
    a / b * b ≤ a ∧ a < a / b * b + b := by
  have h1 : a / b * b + a % b = a := Nat.div_add_mod' a b
  have h2 : a % b < b := Nat.mod_lt a hb
  omega

theorem interval_div_eq {a q b : Nat} (h1 : q * b ≤ a)
    (h2 : a < q * b + b) : a / b = q :=
  Nat.div_eq_of_lt_le h1 (by rw [Nat.succ_mul]; omega)

theorem condRemove_nodup (p : Prop) [Decidable p] (c0 : Cell) (v : Nat)
    (h : c0.possible.Nodup) : (condRemove p c0 v).possible.Nodup := by
  unfold condRemove
  split
  · exact h.erase v
  · exact h

theorem condRemove_not_mem (p : Prop) [Decidable p] (c0 : Cell) (v : Nat)
    (hp : p) (hnd : c0.possible.Nodup) : v ∉ (condRemove p c0 v).possible := by
  unfold condRemove
  rw [if_pos hp]
  exact hnd.not_mem_erase

theorem condRemove_not_mem_of (p : Prop) [Decidable p] (c0 : Cell) (v w : Nat)
    (h : w ∉ c0.possible) : w ∉ (condRemove p c0 v).possible :=
  fun hmem => h ((condRemove_possible_sublist p c0 v).subset hmem)

/-- If at least one of the three elimination passes covers a cell with
duplicate-free candidates, `v` is gone afterwards. -/
theorem chain_not_mem (p q t : Prop) [Decidable p] [Decidable q] [Decidable t]
    (c0 : Cell) (v : Nat) (hnd : c0.possible.Nodup) (hone : p ∨ q ∨ t) :
    v ∉ (condRemove t (condRemove q (condRemove p c0 v) v) v).possible := by
  rcases hone with hp | hq | ht
  · exact condRemove_not_mem_of _ _ _ _ (condRemove_not_mem_of _ _ _ _
      (condRemove_not_mem p c0 v hp hnd))
  · exact condRemove_not_mem_of _ _ _ _
      (condRemove_not_mem q _ v hq (condRemove_nodup p c0 v hnd))
  · exact condRemove_not_mem t _ v ht
      (condRemove_nodup q _ v (condRemove_nodup p c0 v hnd))

theorem sum_map_add_one {l : List Nat} {f g : Nat → Nat} {i : Nat} :
    l.Nodup → i ∈ l → (∀ x ∈ l, x ≠ i → f x = g x) → f i = g i + 1 →
    (l.map f).sum = (l.map g).sum + 1 := by
  induction l with
  | nil => intro _ hi; simp at hi
  | cons a t ih =>
    intro hnd hi hfg hfi
    obtain ⟨ha, hndt⟩ := List.nodup_cons.mp hnd
    simp only [List.map_cons, List.sum_cons]
    rcases List.mem_cons.mp hi with rfl | hit
    · have heq : ∀ x ∈ t, f x = g x := by
        intro x hx
        exact hfg x (List.mem_cons_of_mem _ hx) (fun he => ha (he ▸ hx))
      have : t.map f = t.map g := List.map_congr_left heq
      rw [this, hfi]
      omega
    · have hai : a ≠ i := fun he => ha (he ▸ hit)
      rw [hfg a (List.mem_cons_self _ _) hai,
        ih hndt hit (fun x hx => hfg x (List.mem_cons_of_mem _ hx)) hfi]
      omega

theorem getD_replicate {α : Type} (n i : Nat) (x d : α) (h : i < n) :
    (List.replicate n x).getD i d = x := by
  have hlen : i < (List.replicate n x).length := by simpa using h
  rw [List.getD_eq_getElem _ _ hlen]
  simp

theorem init_getCell {b r c : Nat} (hr : r < b ^ 2) (hc : c < b ^ 2) :
    (Sudoku.init b).getCell r c = Cell.init 0 (b ^ 2) := by
  unfold Sudoku.init Sudoku.getCell
  simp only
  rw [getD_replicate _ _ _ _ hr, getD_replicate _ _ _ _ hc]

/-- A fresh board satisfies the invariant. -/
theorem init_WF (b : Nat) : (Sudoku.init b).WF := by
  have hmax : (Sudoku.init b).max_val = b ^ 2 := rfl
  constructor
  case boxes => rfl
  case rows_len => simp [Sudoku.init]
  case cols_len =>
    intro r hr
    rw [hmax] at hr
    unfold Sudoku.init
    simp only
    rw [getD_replicate _ _ _ _ hr]
    simp
  case cmax =>
    intro r c hr hc
    rw [init_getCell (hmax ▸ hr) (hmax ▸ hc)]
    rfl
  case sorted =>
    intro r c hr hc
    rw [init_getCell (hmax ▸ hr) (hmax ▸ hc)]
    unfold Cell.init
    simp only [if_pos rfl]
    exact List.pairwise_lt_range' 1 (b ^ 2) 1 (by omega)
  case bounds =>
    intro r c hr hc w hw
    rw [init_getCell (hmax ▸ hr) (hmax ▸ hc)] at hw
    unfold Cell.init at hw
    simp at hw
    rw [hmax]
    omega
  case vempty =>
    intro r c hr hc hv
    rw [init_getCell (hmax ▸ hr) (hmax ▸ hc)] at hv ⊢
    exact absurd rfl hv
  case peer =>
    intro r c r2 c2 hr hc _ _ _ _ hv
    rw [init_getCell (hmax ▸ hr) (hmax ▸ hc)] at hv
    exact absurd rfl hv
  case filled =>
    unfold filledCount
    have : ∀ r ∈ List.range (Sudoku.init b).max_val,
        ((List.range (Sudoku.init b).max_val).map (fun c =>
          if ((Sudoku.init b).getCell r c).value = 0 then 0 else 1)).sum = 0 := by
      intro r hr
      rw [List.mem_range] at hr
      have : ∀ c ∈ List.range (Sudoku.init b).max_val,
          (if ((Sudoku.init b).getCell r c).value = 0 then 0 else 1) = 0 := by
        intro c hc
        rw [List.mem_range] at hc
        rw [init_getCell (hmax ▸ hr) (hmax ▸ hc)]
        rfl
      rw [List.map_congr_left this]
      simp
    rw [List.map_congr_left this]
    simp [Sudoku.init]

/-- The central preservation result: `set_cell` keeps the invariant,
whether it fails (no change) or succeeds (target determined, eliminations
propagated to all peers). -/
theorem set_cell_WF {s : Sudoku} (hw : s.WF) (v r c : Nat) :
    ((s.set_cell v r c).1).WF := by
  by_cases h : v ∈ (s.getCell r c).possible
  case neg =>
    rw [set_cell_false h]
    exact hw
  case pos =>
  obtain ⟨hr0, hc0⟩ := mem_possible_in_range h
  have hr : r < s.max_val := by rw [← hw.rows_len]; exact hr0
  have hc : c < s.max_val := by rw [← hw.cols_len r hr]; exact hc0
  have hvb := hw.bounds r c hr hc v h
  have hv0 : v ≠ 0 := by omega
  have hb : 0 < s.box_size := by
    by_contra hb0
    have hz : s.box_size = 0 := by omega
    have : s.max_val = 0 := by rw [hw.boxes, hz]; ring
    omega
  obtain ⟨hbox, hmax, hcf⟩ := set_cell_true_meta h
  have hshape := set_cell_true_shape h
  have hget := fun r' c' => set_cell_true_getCell h r' c'
  have htv0 : (s.getCell r c).value = 0 := by
    by_contra hne
    have hnil := hw.vempty r c hr hc hne
    rw [hnil] at h
    exact absurd h (List.not_mem_nil v)
  have hval : ∀ r' c', ((s.set_cell v r c).1.getCell r' c').value =
      if (r', c') = (r, c) then v else (s.getCell r' c').value := by
    intro r' c'
    rw [hget r' c', condRemove_value, condRemove_value, condRemove_value]
    by_cases hrc : (r', c') = (r, c)
    · rw [if_pos hrc, if_pos hrc]; rfl
    · rw [if_neg hrc, if_neg hrc]
  have hcm : ∀ r' c', ((s.set_cell v r c).1.getCell r' c').max_val =
      (s.getCell r' c').max_val := by
    intro r' c'
    rw [hget r' c', condRemove_max_val, condRemove_max_val, condRemove_max_val]
    by_cases hrc : (r', c') = (r, c)
    · rw [if_pos hrc]
      have h1 : r' = r := congrArg Prod.fst hrc
      have h2 : c' = c := congrArg Prod.snd hrc
      subst h1; subst h2
      rfl
    · rw [if_neg hrc]
  have hset_empty : ((s.getCell r c).set v).possible = [] := by
    unfold Cell.set Cell.init
    dsimp only
    rw [if_neg hv0]
  have hpt : ((s.set_cell v r c).1.getCell r c).possible = [] := by
    refine List.sublist_nil.mp ?_
    have h1 := hget r c
    rw [if_pos rfl] at h1
    rw [h1, ← hset_empty]
    exact (condRemove_possible_sublist _ _ _).trans
      ((condRemove_possible_sublist _ _ _).trans (condRemove_possible_sublist _ _ _))
  have hpsub : ∀ r' c', (r', c') ≠ (r, c) →
      ((s.set_cell v r c).1.getCell r' c').possible.Sublist
        (s.getCell r' c').possible := by
    intro r' c' hne
    have h1 := hget r' c'
    rw [if_neg hne] at h1
    rw [h1]
    exact (condRemove_possible_sublist _ _ _).trans
      ((condRemove_possible_sublist _ _ _).trans (condRemove_possible_sublist _ _ _))
  have hpsub' : ∀ r' c', ((s.set_cell v r c).1.getCell r' c').possible.Sublist
      (s.getCell r' c').possible := by
    intro r' c'
    by_cases hne : (r', c') = (r, c)
    · have h1 : r' = r := congrArg Prod.fst hne
      have h2 : c' = c := congrArg Prod.snd hne
      subst h1; subst h2
      rw [hpt]
      exact List.nil_sublist _
    · exact hpsub r' c' hne
  have hpeer_rm : ∀ r' c', (r', c') ≠ (r, c) → r' < s.max_val → c' < s.max_val →
      Peers s.box_size r c r' c' →
      v ∉ ((s.set_cell v r c).1.getCell r' c').possible := by
    intro r' c' hne hr' hc' hp
    have hnd : (s.getCell r' c').possible.Nodup := sorted_nodup (hw.sorted r' c' hr' hc')
    have h1 := hget r' c'
    rw [if_neg hne] at h1
    rw [h1]
    apply chain_not_mem _ _ _ _ _ hnd
    rcases hp with hpr | hpc | ⟨hbr, hbc⟩
    · exact Or.inl ⟨hpr.symm, hc'⟩
    · exact Or.inr (Or.inl ⟨hpc.symm, hr'⟩)
    · right; right
      unfold inBoxOf
      constructor
      · rw [hbr]
        exact div_mul_interval r' s.box_size hb
      · rw [hbc]
        exact div_mul_interval c' s.box_size hb
  constructor
  case boxes => rw [hmax, hbox]; exact hw.boxes
  case rows_len => rw [hshape.1, hmax]; exact hw.rows_len
  case cols_len =>
    intro r0 h0
    rw [hmax] at h0
    rw [hshape.2 r0, hmax]
    exact hw.cols_len r0 h0
  case cmax =>
    intro r' c' h1 h2
    rw [hmax] at h1 h2
    rw [hcm r' c', hmax]
    exact hw.cmax r' c' h1 h2
  case sorted =>
    intro r' c' h1 h2
    rw [hmax] at h1 h2
    exact List.Pairwise.sublist (hpsub' r' c') (hw.sorted r' c' h1 h2)
  case bounds =>
    intro r' c' h1 h2 w hwm
    rw [hmax] at h1 h2
    rw [hmax]
    exact hw.bounds r' c' h1 h2 w ((hpsub' r' c').subset hwm)
  case vempty =>
    intro r' c' h1 h2 hvne
    rw [hmax] at h1 h2
    by_cases hrc : (r', c') = (r, c)
    · have e1 : r' = r := congrArg Prod.fst hrc
      have e2 : c' = c := congrArg Prod.snd hrc
      subst e1; subst e2
      exact hpt
    · rw [hval r' c', if_neg hrc] at hvne
      have hnil := hw.vempty r' c' h1 h2 hvne
      exact List.sublist_nil.mp (hnil ▸ hpsub r' c' hrc)
  case peer =>
    intro r1 c1 r2 c2 h1 h2 h3 h4 hne hpeers hvne
    rw [hmax] at h1 h2 h3 h4
    rw [hbox] at hpeers
    by_cases hA : (r1, c1) = (r, c)
    · have e1 : r1 = r := congrArg Prod.fst hA
      have e2 : c1 = c := congrArg Prod.snd hA
      subst e1; subst e2
      have hne2 : (r2, c2) ≠ (r1, c1) := fun he => hne (by rw [he])
      have hv1 : ((s.set_cell v r1 c1).1.getCell r1 c1).value = v := by
        rw [hval, if_pos rfl]
      constructor
      · rw [hv1]
        exact hpeer_rm r2 c2 hne2 h3 h4 hpeers
      · have hv2 : ((s.set_cell v r1 c1).1.getCell r2 c2).value =
            (s.getCell r2 c2).value := by rw [hval, if_neg hne2]
        rw [hv1, hv2]
        by_cases hz : (s.getCell r2 c2).value = 0
        · rw [hz]; exact fun he => hv0 he.symm
        · have hps := Peers_symm hpeers
          have hold := (hw.peer r2 c2 r1 c1 h3 h4 h1 h2 hne2 hps hz).1
          exact fun he => hold (he ▸ h)
    · by_cases hB : (r2, c2) = (r, c)
      · have e1 : r2 = r := congrArg Prod.fst hB
        have e2 : c2 = c := congrArg Prod.snd hB
        subst e1; subst e2
        have hv1 : ((s.set_cell v r2 c2).1.getCell r1 c1).value =
            (s.getCell r1 c1).value := by rw [hval, if_neg hA]
        have hv2 : ((s.set_cell v r2 c2).1.getCell r2 c2).value = v := by
          rw [hval, if_pos rfl]
        rw [hv1] at hvne
        have hold := (hw.peer r1 c1 r2 c2 h1 h2 h3 h4 hA hpeers hvne).1
        constructor
        · rw [hpt]
          exact List.not_mem_nil _
        · rw [hv1, hv2]
          exact fun he => hold (he.symm ▸ h)
      · have hv1 : ((s.set_cell v r c).1.getCell r1 c1).value =
            (s.getCell r1 c1).value := by rw [hval, if_neg hA]
        have hv2 : ((s.set_cell v r c).1.getCell r2 c2).value =
            (s.getCell r2 c2).value := by rw [hval, if_neg hB]
        rw [hv1] at hvne
        have hold := hw.peer r1 c1 r2 c2 h1 h2 h3 h4 hne hpeers hvne
        constructor
        · rw [hv1]
          exact fun hm => hold.1 ((hpsub r2 c2 hB).subset hm)
        · rw [hv1, hv2]
          exact hold.2
  case filled =>
    rw [hcf, hw.filled]
    unfold filledCount
    simp only [hmax]
    apply Eq.symm
    apply sum_map_add_one (List.nodup_range _) (List.mem_range.mpr hr)
    · intro x hx hxr
      refine congrArg List.sum (List.map_congr_left ?_)
      intro y hy
      rw [hval x y, if_neg (fun he => hxr (congrArg Prod.fst he))]
    · apply sum_map_add_one (List.nodup_range _) (List.mem_range.mpr hc)
      · intro y hy hyc
        rw [hval r y, if_neg (fun he => hyc (congrArg Prod.snd he))]
      · rw [hval r c, if_pos rfl, htv0]
        rw [if_neg hv0, if_pos rfl]

/-- Propagation preserves the invariant. -/
theorem fill_WF (s : Sudoku) : s.WF → (s.fill_in_all_knowns).WF := by
  induction s using Sudoku.fill_in_all_knowns.induct with
  | case1 s h =>
    intro hw
    rw [Sudoku.fill_in_all_knowns, h]
    exact hw
  | case2 s row col h ih =>
    intro hw
    rw [Sudoku.fill_in_all_knowns, h]
    exact ih (set_cell_WF hw _ _ _)

/-- Boards constructible through the engine's operations: a fresh board,
an assignment attempt, or a propagation pass. -/
inductive Reachable : Sudoku → Prop where
  | init (b : Nat) : Reachable (Sudoku.init b)
  | assign (s : Sudoku) (v r c : Nat) : Reachable s → Reachable ((s.set_cell v r c).1)
  | propagate (s : Sudoku) : Reachable s → Reachable (s.fill_in_all_knowns)

theorem Reachable_WF {s : Sudoku} (h : Reachable s) : s.WF := by
  induction h with
  | init b => exact init_WF b
  | assign s v r c _ ih => exact set_cell_WF ih v r c
  | propagate s _ ih => exact fill_WF s ih

/-- After propagation, no cell is left with exactly one candidate. -/
theorem fill_find_none (s : Sudoku) :
    (s.fill_in_all_knowns).find_one_possible = none := by
  induction s using Sudoku.fill_in_all_knowns.induct with
  | case1 s h =>
    rw [Sudoku.fill_in_all_knowns, h]
    exact h
  | case2 s row col h ih =>
    rw [Sudoku.fill_in_all_knowns, h]
    exact ih

theorem fill_idempotent (s : Sudoku) :
    (s.fill_in_all_knowns).fill_in_all_knowns = s.fill_in_all_knowns := by
  rw [Sudoku.fill_in_all_knowns, fill_find_none s]

theorem solved_iff {s : Sudoku} : s.solved = true ↔
    ∀ r, r < s.max_val → ∀ c, c < s.max_val → (s.getCell r c).value ≠ 0 := by
  unfold Sudoku.solved
  simp [List.all_eq_true, List.mem_range, bne_iff_ne]

theorem find_one_possible_none {s : Sudoku} (h : s.find_one_possible = none) :
    ∀ r, r < s.max_val → ∀ c, c < s.max_val →
    (s.getCell r c).possible.length ≠ 1 := by
  intro r hr c hc
  unfold Sudoku.find_one_possible at h
  rw [List.findSome?_eq_none_iff] at h
  have h2 := h r (List.mem_range.mpr hr)
  rw [Option.map_eq_none'] at h2
  rw [List.find?_eq_none] at h2
  have h3 := h2 c (List.mem_range.mpr hc)
  simpa using h3

/-- Every branch on the work list satisfying the invariant: a successful
search result is an invariant-satisfying, fully solved board. -/
theorem solveLoop_sound :
    ∀ (stack : List Sudoku), (∀ p ∈ stack, p.WF) →
    ∀ t, solveLoop stack = some t → t.WF ∧ t.solved = true := by
  intro stack
  induction stack using solveLoop.induct with
  | case1 =>
    intro _ t ht
    rw [solveLoop] at ht
    exact absurd ht (by simp)
  | case2 p rest puz hsolved =>
    intro hwf t ht
    rw [solveLoop] at ht
    rw [if_pos (show (p.fill_in_all_knowns).solved = true from hsolved)] at ht
    have he := Option.some.inj ht
    rw [← he]
    exact ⟨fill_WF p (hwf p (List.mem_cons_self _ _)),
      show (p.fill_in_all_knowns).solved = true from hsolved⟩
  | case3 p rest puz hs hd ih =>
    intro hwf t ht
    rw [solveLoop] at ht
    rw [if_neg (show ¬(p.fill_in_all_knowns).solved = true from hs),
      if_pos (show (p.fill_in_all_knowns).reached_dead_end = true from hd)] at ht
    exact ih (fun q hq => hwf q (List.mem_cons_of_mem _ hq)) t ht
  | case4 p rest puz hs hd rc row col forks ih =>
    intro hwf t ht
    rw [solveLoop] at ht
    rw [if_neg (show ¬(p.fill_in_all_knowns).solved = true from hs),
      if_neg (show ¬(p.fill_in_all_knowns).reached_dead_end = true from hd)] at ht
    apply ih _ t ht
    intro q hq
    rcases List.mem_append.mp hq with h1 | h2
    · obtain ⟨vv, hvv, rfl⟩ := List.mem_map.mp (List.mem_reverse.mp h1)
      exact set_cell_WF (fill_WF p (hwf p (List.mem_cons_self _ _))) _ _ _
    · exact hwf q (List.mem_cons_of_mem _ h2)

/-- A solved invariant-satisfying board has pairwise distinct values among
peers. -/
theorem WF_solved_peer_distinct {s : Sudoku} (hw : s.WF) (hs : s.solved = true) :
    ∀ r c r2 c2, r < s.max_val → c < s.max_val → r2 < s.max_val → c2 < s.max_val →
    (r, c) ≠ (r2, c2) → Peers s.box_size r c r2 c2 →
    (s.getCell r c).value ≠ (s.getCell r2 c2).value := by
  intro r c r2 c2 h1 h2 h3 h4 hne hp
  have hnz : (s.getCell r c).value ≠ 0 := solved_iff.mp hs r h1 c h2
  exact ((hw.peer r c r2 c2 h1 h2 h3 h4 hne hp hnz).2).symm

theorem filledCount_le (s : Sudoku) : filledCount s ≤ s.max_val * s.max_val := by
  unfold filledCount
  have houter := List.sum_le_card_nsmul
    ((List.range s.max_val).map (fun r =>
      ((List.range s.max_val).map (fun c =>
        if (s.getCell r c).value = 0 then 0 else 1)).sum)) s.max_val ?hbnd
  case hbnd =>
    intro x hx
    obtain ⟨r, _, rfl⟩ := List.mem_map.mp hx
    have hin := List.sum_le_card_nsmul
      ((List.range s.max_val).map (fun c =>
        if (s.getCell r c).value = 0 then 0 else 1)) 1 ?hone
    case hone =>
      intro y hy
      obtain ⟨cc, _, rfl⟩ := List.mem_map.mp hy
      split <;> omega
    simpa [List.length_map, List.length_range, smul_eq_mul] using hin
  simpa [List.length_map, List.length_range, smul_eq_mul] using houter

theorem fill_step_none {s : Sudoku} (h : s.find_one_possible = none) :
    s.fill_in_all_knowns = s := by
  rw [Sudoku.fill_in_all_knowns, h]

theorem fill_step_some {s : Sudoku} {r c : Nat} (h : s.find_one_possible = some (r, c)) :
    s.fill_in_all_knowns =
      ((s.set_cell ((s.getCell r c).possible.headD 0) r c).1).fill_in_all_knowns := by
  rw [Sudoku.fill_in_all_knowns, h]

theorem set_cell_max_val (s : Sudoku) (v r c : Nat) :
    ((s.set_cell v r c).1).max_val = s.max_val := by
  by_cases h : v ∈ (s.getCell r c).possible
  · exact (set_cell_true_meta h).2.1
  · rw [set_cell_false h]

theorem fill_max_val (s : Sudoku) : (s.fill_in_all_knowns).max_val = s.max_val := by
  induction s using Sudoku.fill_in_all_knowns.induct with
  | case1 s h => rw [fill_step_none h]
  | case2 s row col h ih => rw [fill_step_some h, ih, set_cell_max_val]

/-! ### Heap-instrumented search

`Sudoku.solve` in the source operates on Python objects: it deep-copies the
receiver (`copy.deepcopy(self)`), mutates popped work-list entries in place
(`puzzle.fill_in_all_knowns()`), and deep-copies each fork.  To state the
frame property (the receiver object is never written), the same loop is
modelled over an explicit heap `Nat → Sudoku`: the work list holds
addresses, `memUpd` is an in-place write, and fresh addresses come from an
allocation counter.  The loop takes fuel, which the frame property does not
depend on. -/

def memUpd (m : Nat → Sudoku) (a : Nat) (x : Sudoku) : Nat → Sudoku :=
  fun b => if b = a then x else m b

theorem memUpd_ne {m : Nat → Sudoku} {a b : Nat} (h : b ≠ a) (x : Sudoku) :
    memUpd m a x b = m b := by
  unfold memUpd
  rw [if_neg h]

/-- The `while` loop of `Sudoku.solve` over an explicit heap.  Mirrors
`solveLoop`: pop an address, propagate in place, test solved / dead end,
otherwise allocate one fresh copy per candidate of the most constrained
cell (in ascending candidate order) and push their addresses. -/
def solveLoopHeap (fuel : Nat) (stack : List Nat) (mem : Nat → Sudoku)
    (next : Nat) : Option Nat × (Nat → Sudoku) :=
  match fuel, stack with
  | _, [] => (none, mem)
  | 0, _ :: _ => (none, mem)
  | Nat.succ fuel, a :: rest =>
    let mem1 := memUpd mem a ((mem a).fill_in_all_knowns)
    let puzzle := mem1 a
    if puzzle.solved then (some a, mem1)
    else if puzzle.reached_dead_end then solveLoopHeap fuel rest mem1 next
    else
      let rc := puzzle.find_lowest_possibles
      let row := rc.1.toNat
      let col := rc.2.toNat
      let vs := (puzzle.getCell row col).possible
      let mem2 := (List.range vs.length).foldl
        (fun m i => memUpd m (next + i) ((puzzle.set_cell (vs.getD i 0) row col).1)) mem1
      let addrs := (List.range vs.length).map (fun i => next + i)
      solveLoopHeap fuel (addrs.reverse ++ rest) mem2 (next + vs.length)

/-- `Sudoku.solve` over the heap: deep-copy the receiver (at address
`self`) to a fresh address, then run the loop on that copy. -/
def Sudoku.solveOnHeap (self : Nat) (mem : Nat → Sudoku) (next fuel : Nat) :
    Option Nat × (Nat → Sudoku) :=
  solveLoopHeap fuel [next] (memUpd mem next (mem self)) (next + 1)

theorem foldl_memUpd_ne (f : Nat → Nat) (g : Nat → Sudoku) (a : Nat) :
    ∀ (l : List Nat) (m : Nat → Sudoku), (∀ i ∈ l, f i ≠ a) →
    (l.foldl (fun m2 i => memUpd m2 (f i) (g i)) m) a = m a := by
  intro l
  induction l with
  | nil => intro m _; rfl
  | cons i t ih =>
    intro m hne
    rw [List.foldl_cons, ih _ (fun j hj => hne j (List.mem_cons_of_mem _ hj)),
      memUpd_ne (Ne.symm (hne i (List.mem_cons_self _ _))) _]

/-- All writes performed by the loop hit either stack addresses or freshly
allocated addresses, so any address below every stack entry and below the
allocation counter is never written. -/
theorem solveLoopHeap_frame :
    ∀ (fuel : Nat) (stack : List Nat) (mem : Nat → Sudoku) (next a : Nat),
    (∀ b ∈ stack, a < b) → a < next →
    (solveLoopHeap fuel stack mem next).2 a = mem a := by
  intro fuel
  induction fuel with
  | zero =>
    intro stack mem next a _ _
    cases stack <;> rfl
  | succ fuel ih =>
    intro stack mem next a h1 h2
    cases stack with
    | nil => rfl
    | cons hd rest =>
      have hhd : a < hd := h1 hd (List.mem_cons_self _ _)
      have hmem1 : memUpd mem hd ((mem hd).fill_in_all_knowns) a = mem a :=
        memUpd_ne (by omega) _
      rw [solveLoopHeap]
      by_cases hsolved : ((memUpd mem hd ((mem hd).fill_in_all_knowns)) hd).solved = true
      · rw [if_pos hsolved]
        exact hmem1
      · rw [if_neg hsolved]
        by_cases hdead :
            ((memUpd mem hd ((mem hd).fill_in_all_knowns)) hd).reached_dead_end = true
        · rw [if_pos hdead]
          rw [ih rest _ next a (fun b hb => h1 b (List.mem_cons_of_mem _ hb)) h2]
          exact hmem1
        · rw [if_neg hdead]
          rw [ih _ _ _ a ?haddrs ?hnext]
          case haddrs =>
            intro b hb
            rcases List.mem_append.mp hb with hb1 | hb2
            · obtain ⟨i, _, rfl⟩ := List.mem_map.mp (List.mem_reverse.mp hb1)
              omega
            · exact h1 b (List.mem_cons_of_mem _ hb2)
          case hnext => omega
          rw [foldl_memUpd_ne _ _ a _ _ (fun i _ => by omega)]
          exact hmem1

/-! ### Concrete boards used by witnesses and counterexamples -/

/-- A 4×4 board (box_size 2) driven into a dead end: after the four
successful assignments `1@(0,1)`, `2@(0,2)`, `3@(0,3)`, `4@(1,0)`, cell
`(0,0)` is still undetermined but has no candidates left. -/
def deadEndBoard : Sudoku :=
  (((((Sudoku.init 2).set_cell 1 0 1).1.set_cell 2 0 2).1.set_cell 3 0 3).1.set_cell
    4 1 0).1

/-- A 9×9 board with the single clue `5` at `(0,0)`. -/
def oneClueBoard : Sudoku := ((Sudoku.init 3).set_cell 5 0 0).1

/-! ### The claims -/

/-- C1: for every board built through the engine's operations from a fresh
`Sudoku(box_size)`, `solve` returns either `none` (the explicit no-solution
signal) or a board in which every cell is non-zero and no two peer cells
(same row, column, or box) hold equal values; it never returns a partially
filled board. -/
theorem C1_solve_sound (s : Sudoku) (h : Reachable s) :
    s.solve = none ∨
    ∃ t, s.solve = some t ∧
      (∀ r c, r < t.max_val → c < t.max_val → (t.getCell r c).value ≠ 0) ∧
      (∀ r c r2 c2, r < t.max_val → c < t.max_val → r2 < t.max_val →
        c2 < t.max_val → (r, c) ≠ (r2, c2) → Peers t.box_size r c r2 c2 →
        (t.getCell r c).value ≠ (t.getCell r2 c2).value) := by
  cases hs : s.solve with
  | none => exact Or.inl rfl
  | some t =>
    right
    have hsound := solveLoop_sound [s] ?hwf t hs
    case hwf =>
      intro p hp
      rw [List.mem_singleton] at hp
      rw [hp]
      exact Reachable_WF h
    refine ⟨t, rfl, ?_, ?_⟩
    · intro r c hr hc
      exact solved_iff.mp hsound.2 r hr c hc
    · exact WF_solved_peer_distinct hsound.1 hsound.2

theorem C1_witness :
    (Sudoku.init 1).solve = none ∨
    ∃ t, (Sudoku.init 1).solve = some t ∧
      (∀ r c, r < t.max_val → c < t.max_val → (t.getCell r c).value ≠ 0) ∧
      (∀ r c r2 c2, r < t.max_val → c < t.max_val → r2 < t.max_val →
        c2 < t.max_val → (r, c) ≠ (r2, c2) → Peers t.box_size r c r2 c2 →
        (t.getCell r c).value ≠ (t.getCell r2 c2).value) :=
  C1_solve_sound (Sudoku.init 1) (Reachable.init 1)

/-- C2: `set_cell` returns `false` exactly when the requested value is not
among the target cell's candidates, and a failed call leaves the entire
board state unchanged; in particular, on a 9×9 board a second clue with the
same value in the same row as an existing clue fails and leaves
`cells_filled` at 1. -/
theorem C2_set_cell_failure :
    (∀ (s : Sudoku) (v r c : Nat),
      ((s.set_cell v r c).2 = false ↔ v ∉ (s.getCell r c).possible) ∧
      ((s.set_cell v r c).2 = false → (s.set_cell v r c).1 = s)) ∧
    ((oneClueBoard.set_cell 5 0 1).2 = false ∧
      (oneClueBoard.set_cell 5 0 1).1.cells_filled = 1) := by
  constructor
  · intro s v r c
    constructor
    · constructor
      · intro hf hmem
        rw [set_cell_true_snd hmem] at hf
        exact absurd hf (by simp)
      · intro hnm
        rw [set_cell_false hnm]
    · intro hf
      by_cases hmem : v ∈ (s.getCell r c).possible
      · rw [set_cell_true_snd hmem] at hf
        exact absurd hf (by simp)
      · rw [set_cell_false hmem]
  · exact ⟨by decide, by decide⟩

theorem C2_witness :
    ((Sudoku.init 1).set_cell 2 0 0).2 = false ∧
    ((Sudoku.init 1).set_cell 2 0 0).1 = Sudoku.init 1 :=
  ⟨(C2_set_cell_failure.1 (Sudoku.init 1) 2 0 0).1.mpr (by decide),
    (C2_set_cell_failure.1 (Sudoku.init 1) 2 0 0).2
      ((C2_set_cell_failure.1 (Sudoku.init 1) 2 0 0).1.mpr (by decide))⟩

/-- C3: on every board reachable from a fresh board by assignments and the
other board operations, after any successful assignment no two cells that
share a row, column, or box hold equal non-zero values (maintained by the
candidate eliminations performed at assignment time). -/
theorem C3_peer_uniqueness (s : Sudoku) (h : Reachable s) :
    ∀ r c r2 c2, r < s.max_val → c < s.max_val → r2 < s.max_val →
    c2 < s.max_val → (r, c) ≠ (r2, c2) → Peers s.box_size r c r2 c2 →
    (s.getCell r c).value ≠ 0 →
    (s.getCell r c).value ≠ (s.getCell r2 c2).value := by
  intro r c r2 c2 h1 h2 h3 h4 hne hp hnz
  exact ((Reachable_WF h).peer r c r2 c2 h1 h2 h3 h4 hne hp hnz).2.symm

theorem C3_witness :
    (oneClueBoard.getCell 0 0).value ≠ (oneClueBoard.getCell 0 1).value :=
  C3_peer_uniqueness oneClueBoard (Reachable.assign _ 5 0 0 (Reachable.init 3))
    0 0 0 1 (by decide) (by decide) (by decide) (by decide) (by decide)
    (Or.inl rfl) (by decide)

/-- C4 (counterexample to the claim as stated): `deadEndBoard` is reachable
by successful assignments from a fresh board, yet its cell `(0,0)` has
value 0 while its candidate set is empty — so "value non-zero iff
candidates empty" fails in the right-to-left direction. -/
theorem C4_counterexample :
    Reachable deadEndBoard ∧ (deadEndBoard.getCell 0 0).value = 0 ∧
    (deadEndBoard.getCell 0 0).possible = [] :=
  ⟨Reachable.assign _ 4 1 0 (Reachable.assign _ 3 0 3 (Reachable.assign _ 2 0 2
      (Reachable.assign _ 1 0 1 (Reachable.init 2)))),
    by decide, by decide⟩

/-- C4 (amended): on every reachable board a cell with non-zero value has
an empty candidate set (the converse fails at dead ends, where an
undetermined cell can run out of candidates), and a freshly created
undetermined cell's candidate set is exactly `{1..N}`. -/
theorem C4_value_candidates (s : Sudoku) (h : Reachable s) :
    (∀ r c, r < s.max_val → c < s.max_val →
      (s.getCell r c).value ≠ 0 → (s.getCell r c).possible = []) ∧
    (∀ n : Nat, (Cell.init 0 n).possible = List.range' 1 n) := by
  refine ⟨fun r c hr hc => (Reachable_WF h).vempty r c hr hc, fun n => ?_⟩
  unfold Cell.init
  dsimp only
  rw [if_pos rfl]

theorem C4_witness :
    (oneClueBoard.getCell 0 0).possible = [] ∧
    (Cell.init 0 9).possible = List.range' 1 9 :=
  ⟨(C4_value_candidates oneClueBoard
      (Reachable.assign _ 5 0 0 (Reachable.init 3))).1 0 0 (by decide) (by decide)
      (by decide),
    (C4_value_candidates oneClueBoard
      (Reachable.assign _ 5 0 0 (Reachable.init 3))).2 9⟩

/-- C5: each iteration of `fill_in_all_knowns` assigns the found cell's
single candidate through `set_cell`, which is guaranteed to succeed and
increments `cells_filled`; `cells_filled` is bounded by `N²` on reachable
boards; and on return no cell has a candidate list of exactly one member
(the loop terminates — `fill_in_all_knowns` is defined by well-founded
recursion on the total candidate weight `Tstar`). -/
theorem C5_propagation_termination :
    (∀ (s : Sudoku) (r c : Nat), s.find_one_possible = some (r, c) →
      (s.set_cell ((s.getCell r c).possible.headD 0) r c).2 = true ∧
      (s.set_cell ((s.getCell r c).possible.headD 0) r c).1.cells_filled =
        s.cells_filled + 1) ∧
    (∀ s : Sudoku, Reachable s → s.cells_filled ≤ s.max_val * s.max_val) ∧
    (∀ (s : Sudoku) (r c : Nat), r < s.max_val → c < s.max_val →
      ((s.fill_in_all_knowns).getCell r c).possible.length ≠ 1) := by
  refine ⟨?_, ?_, ?_⟩
  · intro s r c hfind
    obtain ⟨hlen, _, _⟩ := find_one_possible_spec hfind
    have hmem : (s.getCell r c).possible.headD 0 ∈ (s.getCell r c).possible := by
      cases hp : (s.getCell r c).possible with
      | nil => rw [hp] at hlen; simp at hlen
      | cons a t => simp [hp]
    exact ⟨set_cell_true_snd hmem, (set_cell_true_meta hmem).2.2⟩
  · intro s h
    rw [(Reachable_WF h).filled]
    exact filledCount_le s
  · intro s r c hr hc
    apply find_one_possible_none (fill_find_none s)
    · rw [fill_max_val]; exact hr
    · rw [fill_max_val]; exact hc

theorem C5_witness :
    (((Sudoku.init 1).set_cell
        (((Sudoku.init 1).getCell 0 0).possible.headD 0) 0 0).2 = true ∧
      ((Sudoku.init 1).set_cell
        (((Sudoku.init 1).getCell 0 0).possible.headD 0) 0 0).1.cells_filled =
        (Sudoku.init 1).cells_filled + 1) ∧
    (Sudoku.init 1).cells_filled ≤ (Sudoku.init 1).max_val * (Sudoku.init 1).max_val ∧
    (((Sudoku.init 1).fill_in_all_knowns).getCell 0 0).possible.length ≠ 1 :=
  ⟨C5_propagation_termination.1 (Sudoku.init 1) 0 0 (by decide),
    C5_propagation_termination.2.1 (Sudoku.init 1) (Reachable.init 1),
    C5_propagation_termination.2.2 (Sudoku.init 1) 0 0 (by decide) (by decide)⟩

/-- C6: `solve` is deterministic — two invocations on equal board states
return equal results: both `none`, or two solved boards with identical cell
values.  The exploration order is a function of the board state alone. -/
theorem C6_solve_deterministic (s1 s2 : Sudoku) (h : s1 = s2) :
    (s1.solve = none ∧ s2.solve = none) ∨
    (∃ t1 t2, s1.solve = some t1 ∧ s2.solve = some t2 ∧
      ∀ r c, (t1.getCell r c).value = (t2.getCell r c).value) := by
  subst h
  cases hs : s1.solve with
  | none => exact Or.inl ⟨rfl, rfl⟩
  | some t => exact Or.inr ⟨t, t, rfl, rfl, fun _ _ => rfl⟩

theorem C6_witness :
    ((Sudoku.init 3).solve = none ∧ (Sudoku.init 3).solve = none) ∨
    (∃ t1 t2, (Sudoku.init 3).solve = some t1 ∧ (Sudoku.init 3).solve = some t2 ∧
      ∀ r c, (t1.getCell r c).value = (t2.getCell r c).value) :=
  C6_solve_deterministic (Sudoku.init 3) (Sudoku.init 3) rfl

/-- C7: candidate lists of reachable boards are sorted strictly ascending
(so branch values are enumerated in ascending numeric order, without
duplicates), and in the branch step the search loop replaces the popped
branch by one fork per candidate — the fork of the last-pushed (largest)
candidate at the head of the work list, all forks ahead of the older
pending branches (LIFO, depth-first). -/
theorem C7_branch_order :
    (∀ (s : Sudoku), Reachable s → ∀ r c, r < s.max_val → c < s.max_val →
      (s.getCell r c).possible.Pairwise (· < ·)) ∧
    (∀ (p : Sudoku) (rest : List Sudoku),
      (p.fill_in_all_knowns).solved = false →
      (p.fill_in_all_knowns).reached_dead_end = false →
      solveLoop (p :: rest) =
        solveLoop
          ((((p.fill_in_all_knowns).getCell
              (p.fill_in_all_knowns).find_lowest_possibles.1.toNat
              (p.fill_in_all_knowns).find_lowest_possibles.2.toNat).possible.map
            (fun value => ((p.fill_in_all_knowns).set_cell value
              (p.fill_in_all_knowns).find_lowest_possibles.1.toNat
              (p.fill_in_all_knowns).find_lowest_possibles.2.toNat).1)).reverse
            ++ rest)) := by
  constructor
  · intro s h r c hr hc
    exact (Reachable_WF h).sorted r c hr hc
  · intro p rest hs hd
    rw [solveLoop]
    rw [if_neg (by rw [hs]; exact Bool.false_ne_true),
      if_neg (by rw [hd]; exact Bool.false_ne_true)]

theorem C7_witness :
    (∀ r c, r < oneClueBoard.max_val → c < oneClueBoard.max_val →
      (oneClueBoard.getCell r c).possible.Pairwise (· < ·)) ∧
    solveLoop [Sudoku.init 2] =
      solveLoop
        ((((Sudoku.init 2).fill_in_all_knowns.getCell
            (Sudoku.init 2).fill_in_all_knowns.find_lowest_possibles.1.toNat
            (Sudoku.init 2).fill_in_all_knowns.find_lowest_possibles.2.toNat).possible.map
          (fun value => ((Sudoku.init 2).fill_in_all_knowns.set_cell value
            (Sudoku.init 2).fill_in_all_knowns.find_lowest_possibles.1.toNat
            (Sudoku.init 2).fill_in_all_knowns.find_lowest_possibles.2.toNat).1)).reverse
          ++ []) := by
  have hfill : (Sudoku.init 2).fill_in_all_knowns = Sudoku.init 2 :=
    fill_step_none (by decide)
  exact ⟨C7_branch_order.1 oneClueBoard
      (Reachable.assign _ 5 0 0 (Reachable.init 3)),
    C7_branch_order.2 (Sudoku.init 2) [] (by rw [hfill]; decide)
      (by rw [hfill]; decide)⟩

/-- C8: running `fill_in_all_knowns` twice in a row equals running it once:
after the first run no cell has exactly one candidate, so the second run
finds nothing, performs no assignment, and changes nothing. -/
theorem C8_propagation_idempotent (s : Sudoku) :
    (s.fill_in_all_knowns).find_one_possible = none ∧
    (s.fill_in_all_knowns).fill_in_all_knowns = s.fill_in_all_knowns :=
  ⟨fill_find_none s, fill_idempotent s⟩

/-- C9: `solve` never mutates its receiver.  In the heap-instrumented model
— where the receiver lives at address `self`, the loop writes popped
entries in place, and forks go to fresh addresses — the memory at `self`
after the call is exactly what it was before, for any fuel, because the
first action is a deep copy to a fresh address and all subsequent work
touches only copies. -/
theorem C9_solve_frame (self next fuel : Nat) (mem : Nat → Sudoku)
    (h : self < next) :
    (Sudoku.solveOnHeap self mem next fuel).2 self = mem self := by
  unfold Sudoku.solveOnHeap
  rw [solveLoopHeap_frame fuel [next] _ (next + 1) self ?h1 ?h2]
  · exact memUpd_ne (by omega) _
  case h1 =>
    intro b hb
    rw [List.mem_singleton] at hb
    omega
  case h2 => omega

theorem C9_witness :
    (Sudoku.solveOnHeap 0 (fun _ => Sudoku.init 3) 1 9).2 0 = Sudoku.init 3 :=
  C9_solve_frame 0 1 9 (fun _ => Sudoku.init 3) (by decide)

/-- C10: the per-cell display mapping renders 0 as the blank marker `_`,
1–9 as the decimal digit, 10–35 as the uppercase letters `A`–`Z`
(code point value+55), 36–64 as the lowercase letters `a`–`z` followed by
three punctuation symbols (code point value+61), and everything above 64
as the give-up marker `*`. -/
theorem C10_display_mapping (c : Cell) :
    (c.value = 0 → c.str = "_") ∧
    (1 ≤ c.value → c.value ≤ 9 →
      c.str = String.singleton (Char.ofNat (c.value + 48))) ∧
    (10 ≤ c.value → c.value ≤ 35 →
      c.str = String.singleton (Char.ofNat (c.value + 55))) ∧
    (36 ≤ c.value → c.value ≤ 64 →
      c.str = String.singleton (Char.ofNat (c.value + 61))) ∧
    (65 ≤ c.value → c.str = "*") ∧
    (Cell.init 1 9).str = "1" ∧ (Cell.init 9 9).str = "9" ∧
    (Cell.init 10 9).str = "A" ∧ (Cell.init 35 9).str = "Z" ∧
    (Cell.init 36 9).str = "a" ∧ (Cell.init 61 9).str = "z" ∧
    (Cell.init 62 9).str = String.singleton (Char.ofNat 123) ∧
    (Cell.init 63 9).str = String.singleton (Char.ofNat 124) ∧
    (Cell.init 64 9).str = String.singleton (Char.ofNat 125) := by
  refine ⟨?_, ?_, ?_, ?_, ?_, by decide, by decide, by decide, by decide,
    by decide, by decide, by decide, by decide, by decide⟩
  · intro h0
    unfold Cell.str
    rw [if_pos h0]
  · intro h1 h9
    unfold Cell.str
    rw [if_neg (by omega), if_pos (by omega)]
  · intro h10 h35
    unfold Cell.str
    rw [if_neg (by omega), if_neg (by omega), if_pos (by omega)]
  · intro h36 h64
    unfold Cell.str
    rw [if_neg (by omega), if_neg (by omega), if_neg (by omega),
      if_pos (by omega)]
  · intro h65
    unfold Cell.str
    rw [if_neg (by omega), if_neg (by omega), if_neg (by omega),
      if_neg (by omega)]

theorem C10_witness :
    (Cell.init 0 9).str = "_" ∧
    (Cell.init 7 9).str = String.singleton (Char.ofNat 55) ∧
    (Cell.init 20 9).str = String.singleton (Char.ofNat 75) ∧
    (Cell.init 40 9).str = String.singleton (Char.ofNat 101) ∧
    (Cell.init 100 9).str = "*" :=
  ⟨(C10_display_mapping (Cell.init 0 9)).1 (by decide),
    (C10_display_mapping (Cell.init 7 9)).2.1 (by decide) (by decide),
    (C10_display_mapping (Cell.init 20 9)).2.2.1 (by decide) (by decide),
    (C10_display_mapping (Cell.init 40 9)).2.2.2.1 (by decide) (by decide),
    (C10_display_mapping (Cell.init 100 9)).2.2.2.2.1 (by decide)⟩
